import Mathlib

/-!
Verification development for the `ffldb` transaction layer
(`database/ffldb/transaction.go`).

The Go source is shallowly embedded below.  Conventions:

* byte strings are `List Nat`; block hashes are a single `Nat` atom
  (the 32-byte hash is opaque in the source: only equality is used);
* `uint32` arithmetic that can overflow is modelled with `% U32`
  (`U32 = 2^32`); other machine integers stay far from their bounds in
  every reachable state and are modelled as `Nat`;
* fallible Go functions return `Except Err _` or pair their result with
  an `Option Err`;
* collaborators that live outside `transaction.go` (the treap-backed
  ordered maps, the bucket/cursor machinery, the block-file store, the
  db cache) are modelled from the specification document, as noted on
  each definition.
-/

/-- Error kinds surfaced by the database layer (spec §6 taxonomy), plus
`DomainError` for the plain (non-`makeDbErr`) error that `PruneBlocks`
returns when the target size is below the maximum block-file size. -/
inductive Err where
  | TxClosed
  | TxNotWritable
  | BlockExists
  | BlockNotFound
  | BlockRegionInvalid
  | Corruption
  | DriverSpecific
  | DomainError
  deriving DecidableEq, Repr

/-- Modelled from the spec: the ordered key→value map contract of
`treap.Mutable` (spec §2 "Ordered map (mutable)").  The treap sources are
not part of the embedded file set; only its `Put`/`Delete`/`Get`/`Has`
map semantics matter to the claims, so an association list represents
the map.  Values are always non-nil byte strings. -/
def Tmap : Type := List (List Nat × List Nat)

instance : Inhabited Tmap := ⟨([] : List (List Nat × List Nat))⟩

/-- `treap.Mutable.Get`: value stored at `k`, `none` when absent. -/
def Tmap.get : Tmap → List Nat → Option (List Nat)
  | [], _ => none
  | p :: rest, k => if p.1 = k then some p.2 else Tmap.get rest k

/-- `treap.Mutable.Has`. -/
def Tmap.has (m : Tmap) (k : List Nat) : Bool :=
  (Tmap.get m k).isSome

/-- `treap.Mutable.Delete`: remove every binding of `k`. -/
def Tmap.del : Tmap → List Nat → Tmap
  | [], _ => []
  | p :: rest, k => if p.1 = k then Tmap.del rest k else p :: Tmap.del rest k

/-- `treap.Mutable.Put`: bind `k` to `v`, replacing any old binding. -/
def Tmap.put (m : Tmap) (k : List Nat) (v : List Nat) : Tmap :=
  (k, v) :: Tmap.del m k

theorem Tmap.get_del_self (m : Tmap) (k : List Nat) :
    Tmap.get (Tmap.del m k) k = none := by
  induction m with
  | nil => rfl
  | cons p rest ih =>
    by_cases h : p.1 = k <;> simp [Tmap.del, Tmap.get, h, ih]

theorem Tmap.get_del_ne (m : Tmap) (k k' : List Nat) (h : k' ≠ k) :
    Tmap.get (Tmap.del m k) k' = Tmap.get m k' := by
  have hk : k ≠ k' := fun e => h e.symm
  induction m with
  | nil => rfl
  | cons p rest ih =>
    by_cases h1 : p.1 = k
    · have h3 : p.1 ≠ k' := h1 ▸ hk
      simp [Tmap.del, Tmap.get, h1, h3, hk, ih]
    · by_cases h4 : p.1 = k' <;> simp [Tmap.del, Tmap.get, h1, h4, h, ih]

theorem Tmap.get_put_self (m : Tmap) (k v : List Nat) :
    Tmap.get (Tmap.put m k v) k = some v := by
  simp [Tmap.put, Tmap.get]

theorem Tmap.get_put_ne (m : Tmap) (k k' v : List Nat) (h : k' ≠ k) :
    Tmap.get (Tmap.put m k v) k' = Tmap.get m k' := by
  have h2 : k ≠ k' := fun e => h e.symm
  simp only [Tmap.put, Tmap.get, if_neg h2]
  exact Tmap.get_del_ne m k k' h

theorem Tmap.has_put_self (m : Tmap) (k v : List Nat) :
    Tmap.has (Tmap.put m k v) k = true := by
  simp [Tmap.has, Tmap.get_put_self]

theorem Tmap.has_del_self (m : Tmap) (k : List Nat) :
    Tmap.has (Tmap.del m k) k = false := by
  simp [Tmap.has, Tmap.get_del_self]

theorem Tmap.has_put_ne (m : Tmap) (k k' v : List Nat) (h : k' ≠ k) :
    Tmap.has (Tmap.put m k v) k' = Tmap.has m k' := by
  simp [Tmap.has, Tmap.get_put_ne m k k' v h]

theorem Tmap.has_del_ne (m : Tmap) (k k' : List Nat) (h : k' ≠ k) :
    Tmap.has (Tmap.del m k) k' = Tmap.has m k' := by
  simp [Tmap.has, Tmap.get_del_ne m k k' h]

/-- A block that is pending to be written on commit
(`pendingBlock` in the source). -/
structure PendingBlock where
  hash : Nat
  bytes : List Nat
  height : Int
  deriving DecidableEq, Repr

instance : Inhabited PendingBlock := ⟨⟨0, [], 0⟩⟩

/-- The `transaction` struct.  The fields that exist purely for
concurrency control or the optional paired MDBX handles
(`activeIterLock`, `activeIters`, `mdbRoTx`, `mdbRwTx`) and the
back-pointers `db`, `metaBucket`, `blockIdxBucket` are not state the
claims quantify over; store/bucket behaviour enters through explicit
environment parameters instead.  The snapshot is `none` once released
by `close`. -/
structure Transaction where
  managed : Bool
  closed : Bool
  writable : Bool
  snapshot : Option Tmap
  pendingBlocks : List (Nat × Nat)
  pendingBlockData : List PendingBlock
  pendingDelFileNums : List Nat
  pendingKeys : Tmap
  pendingRemove : Tmap

/-- Lookup in the `pendingBlocks` Go map (hash → index). -/
def lookupAssoc (m : List (Nat × Nat)) (h : Nat) : Option Nat :=
  (List.find? (fun p => decide (p.1 = h)) m).map (·.2)

/-- Insert/replace in the `pendingBlocks` Go map. -/
def insertAssoc (m : List (Nat × Nat)) (h i : Nat) : List (Nat × Nat) :=
  (h, i) :: List.filter (fun p => decide (p.1 ≠ h)) m

/-- `snapshot.Has` / `snapshot.Get` on a possibly-released snapshot.
Modelled from the spec (§4.3): a snapshot is an immutable key-value
view. -/
def snapGet (s : Option Tmap) (k : List Nat) : Option (List Nat) :=
  match s with
  | none => none
  | some m => Tmap.get m k

/-- `transaction.hasKey`. -/
def hasKey (tx : Transaction) (key : List Nat) : Bool :=
  if tx.writable then
    if Tmap.has tx.pendingRemove key then false
    else if Tmap.has tx.pendingKeys key then true
    else (snapGet tx.snapshot key).isSome
  else (snapGet tx.snapshot key).isSome

/-- `transaction.fetchKey`. -/
def fetchKey (tx : Transaction) (key : List Nat) : Option (List Nat) :=
  if tx.writable then
    if Tmap.has tx.pendingRemove key then none
    else
      match Tmap.get tx.pendingKeys key with
      | some v => some v
      | none => snapGet tx.snapshot key
  else snapGet tx.snapshot key

/-- `transaction.putKey` (always returns a nil error in the source, so
only the state update is modelled; iterator notification is a
concurrency side effect outside the claims). -/
def putKey (tx : Transaction) (key value : List Nat) : Transaction :=
  { tx with
    pendingRemove := Tmap.del tx.pendingRemove key
    pendingKeys := Tmap.put tx.pendingKeys key value }

/-- `transaction.deleteKey`.  The `notifyIterators` flag only controls
iterator notification and is kept for signature fidelity. -/
def deleteKey (tx : Transaction) (key : List Nat) (_notifyIterators : Bool) :
    Transaction :=
  { tx with
    pendingKeys := Tmap.del tx.pendingKeys key
    pendingRemove := Tmap.put tx.pendingRemove key [] }

/-- A pending-set mutation: the two operations that touch
`pendingKeys`/`pendingRemove`. -/
inductive KVOp where
  | put (k v : List Nat)
  | del (k : List Nat)

/-- Apply one mutation. -/
def applyKVOp (tx : Transaction) : KVOp → Transaction
  | KVOp.put k v => putKey tx k v
  | KVOp.del k => deleteKey tx k true

/-- Apply a sequence of mutations. -/
def applyKVOps (tx : Transaction) (ops : List KVOp) : Transaction :=
  ops.foldl applyKVOp tx

/-- No key is in both pending sets. -/
def pendingDisjoint (tx : Transaction) : Prop :=
  ∀ k, ¬(Tmap.has tx.pendingKeys k = true ∧ Tmap.has tx.pendingRemove k = true)

/-- A writable transaction with empty pending sets, as produced by
`db.begin`. -/
def emptyWritableTx : Transaction :=
  { managed := false
    closed := false
    writable := true
    snapshot := some ([] : List (List Nat × List Nat))
    pendingBlocks := []
    pendingBlockData := []
    pendingDelFileNums := []
    pendingKeys := ([] : List (List Nat × List Nat))
    pendingRemove := ([] : List (List Nat × List Nat)) }

/-- C6: on a writable transaction, `putKey` then `deleteKey` makes the
key absent (`fetchKey = none`, `hasKey = false`), and `deleteKey` then
`putKey` makes `fetchKey` return the new value, regardless of the
committed snapshot. -/
theorem put_delete_key_semantics (tx : Transaction) (k v : List Nat)
    (hw : tx.writable = true) :
    fetchKey (deleteKey (putKey tx k v) k true) k = none ∧
    hasKey (deleteKey (putKey tx k v) k true) k = false ∧
    fetchKey (putKey (deleteKey tx k true) k v) k = some v := by
  refine ⟨?_, ?_, ?_⟩
  · simp [fetchKey, deleteKey, putKey, hw, Tmap.has_put_self]
  · simp [hasKey, deleteKey, putKey, hw, Tmap.has_put_self]
  · simp [fetchKey, putKey, deleteKey, hw, Tmap.has, Tmap.get_del_self,
      Tmap.get_put_self]

/-- Witness for `put_delete_key_semantics` at a concrete transaction,
key and value. -/
theorem put_delete_key_semantics_witness :
    fetchKey (deleteKey (putKey emptyWritableTx [7] [1, 2]) [7] true) [7]
        = none ∧
    hasKey (deleteKey (putKey emptyWritableTx [7] [1, 2]) [7] true) [7]
        = false ∧
    fetchKey (putKey (deleteKey emptyWritableTx [7] true) [7] [1, 2]) [7]
        = some [1, 2] :=
  put_delete_key_semantics emptyWritableTx [7] [1, 2] rfl

theorem pendingDisjoint_applyKVOp (tx : Transaction) (op : KVOp)
    (h : pendingDisjoint tx) : pendingDisjoint (applyKVOp tx op) := by
  cases op with
  | put k v =>
    intro k' hk'
    by_cases he : k' = k
    · subst he
      simp [applyKVOp, putKey, Tmap.has_del_self] at hk'
    · simp only [applyKVOp, putKey] at hk'
      rw [Tmap.has_put_ne _ _ _ _ he, Tmap.has_del_ne _ _ _ he] at hk'
      exact h k' hk'
  | del k =>
    intro k' hk'
    by_cases he : k' = k
    · subst he
      simp [applyKVOp, deleteKey, Tmap.has_del_self] at hk'
    · simp only [applyKVOp, deleteKey] at hk'
      rw [Tmap.has_del_ne _ _ _ he, Tmap.has_put_ne _ _ _ _ he] at hk'
      exact h k' hk'

theorem pendingDisjoint_applyKVOps (tx : Transaction) (ops : List KVOp)
    (h : pendingDisjoint tx) : pendingDisjoint (applyKVOps tx ops) := by
  induction ops generalizing tx with
  | nil => exact h
  | cons op rest ih =>
    exact ih (applyKVOp tx op) (pendingDisjoint_applyKVOp tx op h)

/-- C7: starting from empty pending sets, no sequence of
`putKey`/`deleteKey` mutations ever leaves a key simultaneously in
`pendingKeys` and `pendingRemove`. -/
theorem pending_sets_disjoint (ops : List KVOp) :
    pendingDisjoint (applyKVOps emptyWritableTx ops) := by
  refine pendingDisjoint_applyKVOps _ _ ?_
  intro k hk
  simp [emptyWritableTx, Tmap.has, Tmap.get] at hk

/-- `blockLocation`: where a block's payload lives in the flat store. -/
structure BlockLoc where
  blockFileNum : Nat
  fileOffset : Nat
  blockLen : Nat
  deriving DecidableEq, Repr

instance : Inhabited BlockLoc := ⟨⟨0, 0, 0⟩⟩

/-- `serializeBlockLoc`, modelled from the spec (§3 "Block location"):
a fixed-width packing of the triple; `blockio.go` is outside the
embedded file set, so the packing is a three-element list. -/
def serializeBlockLoc (loc : BlockLoc) : List Nat :=
  [loc.blockFileNum, loc.fileOffset, loc.blockLen]

/-- `deserializeBlockLoc`, the inverse; fails on malformed rows. -/
def deserializeBlockLoc : List Nat → Option BlockLoc
  | [f, o, l] => some ⟨f, o, l⟩
  | _ => none

/-- The fixed 4-byte id of the block-index bucket (spec §3: fixed id
distinct from the root; the exact bytes live outside the embedded
file set and are immaterial to the claims). -/
def blockIdxBucketID : List Nat := [0, 0, 0, 1]

/-- `bucketizedKey`: the bucket id prepended to the user key.  A block
hash used as an index key is its single-atom encoding. -/
def bucketizedKey (id : List Nat) (h : Nat) : List Nat := id ++ [h]

/-- `transaction.hasBlock`. -/
def hasBlock (tx : Transaction) (h : Nat) : Bool :=
  (lookupAssoc tx.pendingBlocks h).isSome ||
    hasKey tx (bucketizedKey blockIdxBucketID h)

/-- `transaction.fetchBlockRow`, with the `bucket.Get` delegation to
`fetchKey` modelled from the spec (§4.2); the `none` case is the
`ErrBlockNotFound` branch, surfaced by the callers. -/
def fetchBlockRow (tx : Transaction) (h : Nat) : Option (List Nat) :=
  fetchKey tx (bucketizedKey blockIdxBucketID h)

/-- A `btcutil.Block` as `StoreBlock` consumes it: its hash, its
height, and the outcome of `block.Bytes()` (`none` models a
serialization failure, the `ErrDriverSpecific` branch). -/
structure Block where
  hash : Nat
  height : Int
  ser : Option (List Nat)

/-- `transaction.StoreBlock`.  The returned transaction is the state
after the call; the `Option Err` is the returned error.  The function
touches no disk and no environment: it only stages the block. -/
def StoreBlock (tx : Transaction) (b : Block) : Transaction × Option Err :=
  if tx.closed then (tx, some Err.TxClosed)
  else if !tx.writable then (tx, some Err.TxNotWritable)
  else if hasBlock tx b.hash then (tx, some Err.BlockExists)
  else
    match b.ser with
    | none => (tx, some Err.DriverSpecific)
    | some blockBytes =>
      ({ tx with
          pendingBlocks := insertAssoc tx.pendingBlocks b.hash
            tx.pendingBlockData.length
          pendingBlockData := tx.pendingBlockData ++
            [⟨b.hash, blockBytes, b.height⟩] }, none)

/-- `transaction.HasBlock`. -/
def HasBlock (tx : Transaction) (h : Nat) : Except Err Bool :=
  if tx.closed then Except.error Err.TxClosed
  else Except.ok (hasBlock tx h)

/-- `transaction.HasBlocks`. -/
def HasBlocks (tx : Transaction) (hs : List Nat) : Except Err (List Bool) :=
  if tx.closed then Except.error Err.TxClosed
  else Except.ok (hs.map (hasBlock tx))

/-- The block-file store as the transaction sees it, modelled from the
spec (§4.5 contract): configuration, the directory-scan result
(`scanBlockFiles` succeeding with `(first, last, lastFileSize)`), and
pure region/block readers (`readBlockRegion` performs no bounds checks
of its own; `readBlock` checksum failures are outside the claims). -/
structure StoreEnv where
  maxBlockFileSize : Nat
  first : Nat
  last : Nat
  lastFileSize : Nat
  readBlockRegion : BlockLoc → Nat → Nat → List Nat
  readBlock : Nat → BlockLoc → List Nat

/-- `transaction.FetchBlock`. -/
def FetchBlock (tx : Transaction) (env : StoreEnv) (h : Nat) :
    Except Err (List Nat) :=
  if tx.closed then Except.error Err.TxClosed
  else
    match lookupAssoc tx.pendingBlocks h with
    | some idx => Except.ok (tx.pendingBlockData.getD idx default).bytes
    | none =>
      match fetchBlockRow tx h with
      | none => Except.error Err.BlockNotFound
      | some blockRow =>
        match deserializeBlockLoc blockRow with
        | none => Except.error Err.Corruption
        | some location => Except.ok (env.readBlock h location)

/-- The per-hash loop body of `transaction.FetchBlocks`. -/
def fetchBlocksLoop (tx : Transaction) (env : StoreEnv) :
    List Nat → Except Err (List (List Nat))
  | [] => Except.ok []
  | h :: rest =>
    match FetchBlock tx env h with
    | Except.error e => Except.error e
    | Except.ok b =>
      match fetchBlocksLoop tx env rest with
      | Except.error e => Except.error e
      | Except.ok bs => Except.ok (b :: bs)

/-- `transaction.FetchBlocks`. -/
def FetchBlocks (tx : Transaction) (env : StoreEnv) (hs : List Nat) :
    Except Err (List (List Nat)) :=
  if tx.closed then Except.error Err.TxClosed
  else fetchBlocksLoop tx env hs

/-- `database.BlockRegion`: `Offset` and `Len` are `uint32` in the
source; theorems carry the `< U32` range hypotheses. -/
structure BlockRegion where
  hash : Nat
  offset : Nat
  len : Nat
  deriving DecidableEq, Repr

instance : Inhabited BlockRegion := ⟨⟨0, 0, 0⟩⟩

/-- `2^32`, the modulus of `uint32` arithmetic. -/
def U32 : Nat := 4294967296

/-- `tx.pendingBlockData[idx].bytes`; the Go indexing never goes out of
range because `pendingBlocks` only stores in-range indices. -/
def pendingBytesAt (tx : Transaction) (idx : Nat) : List Nat :=
  (tx.pendingBlockData.getD idx default).bytes

/-- `transaction.fetchPendingRegion`.  `Except.ok none` is the source's
`(nil, nil)` "not pending" return; `blockLen` and `endOffset` are
`uint32` values in the source, hence the `% U32`. -/
def fetchPendingRegion (tx : Transaction) (r : BlockRegion) :
    Except Err (Option (List Nat)) :=
  match lookupAssoc tx.pendingBlocks r.hash with
  | none => Except.ok none
  | some idx =>
    let blockBytes := pendingBytesAt tx idx
    let blockLen := blockBytes.length % U32
    let endOffset := (r.offset + r.len) % U32
    if endOffset < r.offset ∨ endOffset > blockLen then
      Except.error Err.BlockRegionInvalid
    else Except.ok (some ((blockBytes.drop r.offset).take (endOffset - r.offset)))

/-- `transaction.FetchBlockRegion`.  A `nil` `pendingBlocks` map and an
empty one behave identically under Go map lookup, so the source's
`tx.pendingBlocks != nil` guard collapses into `fetchPendingRegion`. -/
def FetchBlockRegion (tx : Transaction) (env : StoreEnv) (r : BlockRegion) :
    Except Err (List Nat) :=
  if tx.closed then Except.error Err.TxClosed
  else
    match fetchPendingRegion tx r with
    | Except.error e => Except.error e
    | Except.ok (some regionBytes) => Except.ok regionBytes
    | Except.ok none =>
      match fetchBlockRow tx r.hash with
      | none => Except.error Err.BlockNotFound
      | some blockRow =>
        match deserializeBlockLoc blockRow with
        | none => Except.error Err.BlockRegionInvalid
        | some location =>
          let endOffset := (r.offset + r.len) % U32
          if endOffset < r.offset ∨ endOffset > location.blockLen then
            Except.error Err.BlockRegionInvalid
          else Except.ok (env.readBlockRegion location r.offset r.len)

theorem lookupAssoc_insertAssoc_self (m : List (Nat × Nat)) (h i : Nat) :
    lookupAssoc (insertAssoc m h i) h = some i := by
  simp [lookupAssoc, insertAssoc, List.find?]

/-- C8: `StoreBlock` returns `TxClosed` on a closed transaction,
`TxNotWritable` on a read-only one, `BlockExists` when the hash is in
`pendingBlocks` or (respecting the pending key overlay) in the block
index, `DriverSpecific` when serialization fails — each with the state
untouched — and on success only appends `(hash, bytes, height)` to
`pendingBlockData` and records its index in `pendingBlocks`, leaving
the key-value pending sets, the pending deletions and the snapshot
unchanged (it has no access to disk at all: no store environment is
consumed). -/
theorem storeBlock_spec (tx : Transaction) (b : Block) :
    (tx.closed = true → StoreBlock tx b = (tx, some Err.TxClosed)) ∧
    (tx.closed = false → tx.writable = false →
      StoreBlock tx b = (tx, some Err.TxNotWritable)) ∧
    (tx.closed = false → tx.writable = true →
      ((lookupAssoc tx.pendingBlocks b.hash).isSome = true ∨
        hasKey tx (bucketizedKey blockIdxBucketID b.hash) = true) →
      StoreBlock tx b = (tx, some Err.BlockExists)) ∧
    (tx.closed = false → tx.writable = true → hasBlock tx b.hash = false →
      b.ser = none → StoreBlock tx b = (tx, some Err.DriverSpecific)) ∧
    (∀ bs, tx.closed = false → tx.writable = true →
      hasBlock tx b.hash = false → b.ser = some bs →
      (StoreBlock tx b).2 = none ∧
      lookupAssoc (StoreBlock tx b).1.pendingBlocks b.hash =
        some tx.pendingBlockData.length ∧
      (StoreBlock tx b).1.pendingBlockData =
        tx.pendingBlockData ++ [⟨b.hash, bs, b.height⟩] ∧
      (StoreBlock tx b).1.pendingKeys = tx.pendingKeys ∧
      (StoreBlock tx b).1.pendingRemove = tx.pendingRemove ∧
      (StoreBlock tx b).1.pendingDelFileNums = tx.pendingDelFileNums ∧
      (StoreBlock tx b).1.snapshot = tx.snapshot) := by
  refine ⟨?_, ?_, ?_, ?_, ?_⟩
  · intro hc; simp [StoreBlock, hc]
  · intro hc hw; simp [StoreBlock, hc, hw]
  · intro hc hw hex
    have hb : hasBlock tx b.hash = true := by
      simp [hasBlock]
      rcases hex with h1 | h1
      · exact Or.inl (by simpa using h1)
      · exact Or.inr h1
    simp [StoreBlock, hc, hw, hb]
  · intro hc hw hb hser; simp [StoreBlock, hc, hw, hb, hser]
  · intro bs hc hw hb hser
    simp [StoreBlock, hc, hw, hb, hser, lookupAssoc_insertAssoc_self]

/-- Witness for `storeBlock_spec`: a concrete closed transaction. -/
theorem storeBlock_spec_witness :
    StoreBlock { emptyWritableTx with closed := true }
        ⟨9, 1, some [1, 2]⟩ =
      ({ emptyWritableTx with closed := true }, some Err.TxClosed) :=
  (storeBlock_spec { emptyWritableTx with closed := true }
    ⟨9, 1, some [1, 2]⟩).1 rfl

/-- C10: whenever `StoreBlock` returns an error, the transaction state
is exactly as before the call: serialization happens before any
mutation, so every error branch is effect-free. -/
theorem storeBlock_error_preserves_state (tx : Transaction) (b : Block)
    (e : Err) (h : (StoreBlock tx b).2 = some e) :
    (StoreBlock tx b).1 = tx := by
  rcases hser : b.ser with _ | bs <;>
    by_cases hc : tx.closed = true <;>
    by_cases hw : tx.writable = true <;>
    by_cases hb : hasBlock tx b.hash = true <;>
    simp [StoreBlock, hc, hw, hb, hser] at h ⊢

/-- Witness for `storeBlock_error_preserves_state`: the closed-
transaction error leaves the state untouched. -/
theorem storeBlock_error_preserves_state_witness :
    (StoreBlock { emptyWritableTx with closed := true }
        ⟨9, 1, some [1, 2]⟩).1 =
      { emptyWritableTx with closed := true } :=
  storeBlock_error_preserves_state
    { emptyWritableTx with closed := true } ⟨9, 1, some [1, 2]⟩
    Err.TxClosed rfl

/-- The length bound `FetchBlockRegion` checks a region against: the
pending payload's byte length when the hash is pending, otherwise the
`blockLen` recorded in the block-index entry. -/
def regionBound (tx : Transaction) (h : Nat) : Option Nat :=
  match lookupAssoc tx.pendingBlocks h with
  | some idx => some (pendingBytesAt tx idx).length
  | none =>
    match fetchBlockRow tx h with
    | none => none
    | some row => (deserializeBlockLoc row).map (·.blockLen)

theorem pendingBytes_len_lt (tx : Transaction)
    (hwf : ∀ pb ∈ tx.pendingBlockData, pb.bytes.length < U32) (idx : Nat) :
    (pendingBytesAt tx idx).length < U32 := by
  unfold pendingBytesAt
  rw [List.getD_eq_getElem?_getD]
  rcases h : tx.pendingBlockData[idx]? with _ | pb
  · rw [Option.getD_none]
    norm_num [U32, default, Inhabited.default]
  · rw [Option.getD_some]
    exact hwf pb (List.getElem?_mem h)

/-- C3: for an open transaction and a block that is present (pending or
recorded in the block index), `FetchBlockRegion` fails with
`BlockRegionInvalid` exactly when the 32-bit sum `offset + len` wraps
around (`endOffset < offset`) or exceeds the applicable length bound;
by the `Except` result type, no bytes accompany a bounds violation. -/
theorem fetchBlockRegion_bounds (tx : Transaction) (env : StoreEnv)
    (r : BlockRegion) (bound : Nat)
    (hopen : tx.closed = false)
    (hwf : ∀ pb ∈ tx.pendingBlockData, pb.bytes.length < U32)
    (hbound : regionBound tx r.hash = some bound) :
    (FetchBlockRegion tx env r = Except.error Err.BlockRegionInvalid ↔
      ((r.offset + r.len) % U32 < r.offset ∨
        bound < (r.offset + r.len) % U32)) := by
  rcases hp : lookupAssoc tx.pendingBlocks r.hash with _ | idx
  · rcases hrow : fetchBlockRow tx r.hash with _ | row
    · simp [regionBound, hp, hrow] at hbound
    · rcases hloc : deserializeBlockLoc row with _ | loc
      · simp [regionBound, hp, hrow, hloc] at hbound
      · have hb : bound = loc.blockLen := by
          simp [regionBound, hp, hrow, hloc] at hbound
          exact hbound.symm
        subst hb
        by_cases hcond : (r.offset + r.len) % U32 < r.offset ∨
            loc.blockLen < (r.offset + r.len) % U32
        · simp [FetchBlockRegion, fetchPendingRegion, hopen, hp, hrow,
            hloc, hcond]
        · simp [FetchBlockRegion, fetchPendingRegion, hopen, hp, hrow,
            hloc, hcond]
  · have hlen : (pendingBytesAt tx idx).length % U32 =
        (pendingBytesAt tx idx).length :=
      Nat.mod_eq_of_lt (pendingBytes_len_lt tx hwf idx)
    have hb : bound = (pendingBytesAt tx idx).length := by
      simp [regionBound, hp] at hbound
      exact hbound.symm
    subst hb
    by_cases hcond : (r.offset + r.len) % U32 < r.offset ∨
        (pendingBytesAt tx idx).length < (r.offset + r.len) % U32
    · simp [FetchBlockRegion, fetchPendingRegion, hopen, hp, hlen, hcond]
    · simp [FetchBlockRegion, fetchPendingRegion, hopen, hp, hlen, hcond]

/-- Witness for `fetchBlockRegion_bounds`: a pending block of length 4
and the region `(offset 2, len 3)`, which exceeds the bound. -/
theorem fetchBlockRegion_bounds_witness :
    FetchBlockRegion
        { emptyWritableTx with
            pendingBlocks := [(5, 0)]
            pendingBlockData := [⟨5, [1, 2, 3, 4], 0⟩] }
        ⟨10, 0, 0, 0, fun _ _ _ => [], fun _ _ => []⟩
        ⟨5, 2, 3⟩ = Except.error Err.BlockRegionInvalid :=
  (fetchBlockRegion_bounds
      { emptyWritableTx with
          pendingBlocks := [(5, 0)]
          pendingBlockData := [⟨5, [1, 2, 3, 4], 0⟩] }
      ⟨10, 0, 0, 0, fun _ _ _ => [], fun _ _ => []⟩
      ⟨5, 2, 3⟩ 4 rfl (by decide) (by decide)).mpr
    (Or.inr (by decide))

/-- The file-selection loop of `PruneBlocks`:
`for i := first; i < last; i++ { append i; totalSize -= maxSize;
if totalSize <= targetSize break }`, with fuel `last - first`.
`uint64` subtraction never underflows here because each iteration still
has at least one max-size file accounted in `total`. -/
def pruneLoop (maxSize targetSize : Nat) : Nat → Nat → Nat → List Nat
  | _, 0, _ => []
  | i, rem + 1, total =>
    let total' := total - maxSize
    if total' ≤ targetSize then [i]
    else i :: pruneLoop maxSize targetSize (i + 1) rem total'

/-- Modelled from the spec (§4.2/§4.4): the block-index bucket cursor
enumerates the effective `(hash, location)` entries in order and
`cursor.Delete` removes the current entry; rows deserialize to their
stored locations.  Returns (deleted hashes in cursor order, remaining
entries). -/
def pruneIndexWalk (isDeleted : Nat → Bool) :
    List (Nat × BlockLoc) → List Nat × List (Nat × BlockLoc)
  | [] => ([], [])
  | e :: rest =>
    let w := pruneIndexWalk isDeleted rest
    if isDeleted e.2.blockFileNum then (e.1 :: w.1, w.2)
    else (w.1, (e.1, e.2) :: w.2)

/-- `transaction.PruneBlocks`.  `entries` is the effective content of
the block-index bucket (the cursor's enumeration); the result carries
the transaction, the remaining index entries after the cursor
deletions, and the returned deleted hashes. -/
def PruneBlocks (tx : Transaction) (env : StoreEnv)
    (entries : List (Nat × BlockLoc)) (targetSize : Nat) :
    Except Err (Transaction × List (Nat × BlockLoc) × List Nat) :=
  if tx.closed then Except.error Err.TxClosed
  else if !tx.writable then Except.error Err.TxNotWritable
  else if targetSize < env.maxBlockFileSize then Except.error Err.DomainError
  else if env.first = env.last then Except.ok (tx, entries, [])
  else
    let maxSizeFileCount := env.last - env.first
    let totalSize := env.lastFileSize + env.maxBlockFileSize * maxSizeFileCount
    if totalSize ≤ targetSize then Except.ok (tx, entries, [])
    else
      let chosen := pruneLoop env.maxBlockFileSize targetSize env.first
        (env.last - env.first) totalSize
      let walk := pruneIndexWalk (fun f => chosen.contains f) entries
      Except.ok
        ({ tx with pendingDelFileNums := tx.pendingDelFileNums ++ chosen },
          walk.2, walk.1)

/-- `transaction.BeenPruned` (note: the source performs no
closed-transaction check here).  `scanBlockFiles` succeeding with
`(first, last, lastFileSize)` is part of the environment. -/
def BeenPruned (_tx : Transaction) (env : StoreEnv) : Except Err Bool :=
  Except.ok (decide (env.first ≠ 0) && decide (env.first ≠ env.last))

/-- `totalSize` as computed by `PruneBlocks` from the directory scan. -/
def totalBlockSize (env : StoreEnv) : Nat :=
  env.lastFileSize + env.maxBlockFileSize * (env.last - env.first)

theorem pruneLoop_spec (maxSize tgt : Nat) :
    ∀ (rem i total : Nat), tgt < total →
    ∃ k, 1 ≤ k ∧ k ≤ rem + 1 ∧
      pruneLoop maxSize tgt i (rem + 1) total = List.range' i k ∧
      (total - k * maxSize ≤ tgt ∨ k = rem + 1) ∧
      ∀ j, 1 ≤ j → j < k → tgt < total - j * maxSize := by
  intro rem
  induction rem with
  | zero =>
    intro i total _
    by_cases h : total - maxSize ≤ tgt
    · exact ⟨1, le_refl 1, le_refl 1, by simp [pruneLoop, h],
        Or.inl (by simpa using h), by omega⟩
    · exact ⟨1, le_refl 1, le_refl 1, by simp [pruneLoop, h],
        Or.inr rfl, by omega⟩
  | succ rem' ih =>
    intro i total htot
    by_cases h : total - maxSize ≤ tgt
    · exact ⟨1, le_refl 1, by omega, by simp [pruneLoop, h],
        Or.inl (by simpa using h), by omega⟩
    · have htot' : tgt < total - maxSize := by omega
      obtain ⟨k, hk1, hk2, heq, hstop, hmin⟩ := ih (i + 1) (total - maxSize) htot'
      have hmul : (k + 1) * maxSize = k * maxSize + maxSize :=
        Nat.succ_mul k maxSize
      refine ⟨k + 1, by omega, by omega, ?_, ?_, ?_⟩
      · show pruneLoop maxSize tgt i (rem' + 1 + 1) total = List.range' i (k + 1)
        rw [List.range'_succ]
        have hstep : pruneLoop maxSize tgt i (rem' + 1 + 1) total =
            if total - maxSize ≤ tgt then [i]
            else i :: pruneLoop maxSize tgt (i + 1) (rem' + 1) (total - maxSize) :=
          rfl
        rw [hstep, if_neg h, heq]
      · rcases hstop with hs | hs
        · exact Or.inl (by omega)
        · exact Or.inr (by omega)
      · intro j hj1 hjk
        by_cases hj : j = 1
        · subst hj
          simpa using htot'
        · have hj2 : 1 ≤ j - 1 := by omega
          have hj3 : j - 1 < k := by omega
          have := hmin (j - 1) hj2 hj3
          have hjmul : j * maxSize = (j - 1) * maxSize + maxSize := by
            have hj' : j - 1 + 1 = j := by omega
            conv_lhs => rw [← hj']
            rw [Nat.succ_mul]
          omega

theorem pruneIndexWalk_eq_filter (p : Nat → Bool)
    (entries : List (Nat × BlockLoc)) :
    pruneIndexWalk p entries =
      ((entries.filter (fun e => p e.2.blockFileNum)).map Prod.fst,
        entries.filter (fun e => !p e.2.blockFileNum)) := by
  induction entries with
  | nil => rfl
  | cons e rest ih =>
    by_cases h : p e.2.blockFileNum <;> simp [pruneIndexWalk, h, ih]

/-- C1: `PruneBlocks` on an open writable transaction fails with the
domain error when `targetSize < maxBlockFileSize`; is a no-op returning
no hashes when `first = last` or `totalSize ≤ targetSize`; and
otherwise appends the file interval `[first, first + k)` — never
containing `last` — to `pendingDelFileNums`, where `k` is minimal with
`totalSize - k·maxSize ≤ targetSize` (or the interval is exhausted),
deletes from the block index exactly the entries located in chosen
files, and returns exactly those entries' hashes. -/
theorem pruneBlocks_spec (tx : Transaction) (env : StoreEnv)
    (entries : List (Nat × BlockLoc)) (targetSize : Nat)
    (hopen : tx.closed = false) (hw : tx.writable = true) :
    (targetSize < env.maxBlockFileSize →
      PruneBlocks tx env entries targetSize = Except.error Err.DomainError) ∧
    (env.maxBlockFileSize ≤ targetSize → env.first = env.last →
      PruneBlocks tx env entries targetSize = Except.ok (tx, entries, [])) ∧
    (env.maxBlockFileSize ≤ targetSize → totalBlockSize env ≤ targetSize →
      PruneBlocks tx env entries targetSize = Except.ok (tx, entries, [])) ∧
    (env.maxBlockFileSize ≤ targetSize → env.first < env.last →
      targetSize < totalBlockSize env →
      ∃ k, 1 ≤ k ∧ env.first + k ≤ env.last ∧
        (∀ f ∈ List.range' env.first k, env.first ≤ f ∧ f < env.last) ∧
        (totalBlockSize env - k * env.maxBlockFileSize ≤ targetSize ∨
          k = env.last - env.first) ∧
        (∀ j, 1 ≤ j → j < k →
          targetSize < totalBlockSize env - j * env.maxBlockFileSize) ∧
        PruneBlocks tx env entries targetSize =
          Except.ok
            ({ tx with pendingDelFileNums :=
                tx.pendingDelFileNums ++ List.range' env.first k },
              entries.filter
                (fun e => !(List.range' env.first k).contains e.2.blockFileNum),
              (entries.filter
                (fun e =>
                  (List.range' env.first k).contains e.2.blockFileNum)).map
                Prod.fst)) := by
  refine ⟨?_, ?_, ?_, ?_⟩
  · intro hlt
    simp [PruneBlocks, hopen, hw, hlt]
  · intro hge heq
    simp [PruneBlocks, hopen, hw, Nat.not_lt_of_le hge, heq]
  · intro hge hts
    by_cases heq : env.first = env.last
    · simp [PruneBlocks, hopen, hw, Nat.not_lt_of_le hge, heq]
    · unfold totalBlockSize at hts
      simp [PruneBlocks, hopen, hw, Nat.not_lt_of_le hge, heq, hts]
  · intro hge hfl htot
    have hne : ¬(env.first = env.last) := by omega
    unfold totalBlockSize at htot
    have hts : ¬(env.lastFileSize +
        env.maxBlockFileSize * (env.last - env.first) ≤ targetSize) := by
      omega
    have hrw : env.last - env.first = (env.last - env.first - 1) + 1 := by
      omega
    obtain ⟨k, hk1, hk2, heq, hstop, hmin⟩ :=
      pruneLoop_spec env.maxBlockFileSize targetSize
        (env.last - env.first - 1) env.first
        (env.lastFileSize + env.maxBlockFileSize * (env.last - env.first))
        (by omega)
    refine ⟨k, hk1, by omega, ?_, ?_, ?_, ?_⟩
    · intro f hf
      have := List.mem_range'_1.mp hf
      omega
    · unfold totalBlockSize
      rcases hstop with hs | hs
      · exact Or.inl hs
      · exact Or.inr (by omega)
    · intro j hj1 hjk
      unfold totalBlockSize
      exact hmin j hj1 hjk
    · simp only [PruneBlocks, hopen, hw, Bool.not_true, Bool.false_eq_true,
        if_false, if_neg (by omega : ¬(targetSize < env.maxBlockFileSize)),
        if_neg hne, if_neg hts]
      rw [show pruneLoop env.maxBlockFileSize targetSize env.first
          (env.last - env.first)
          (env.lastFileSize + env.maxBlockFileSize * (env.last - env.first)) =
          List.range' env.first k from hrw ▸ heq]
      rw [pruneIndexWalk_eq_filter]

/-- Witness for `pruneBlocks_spec`: target below the max file size is a
domain error. -/
theorem pruneBlocks_spec_witness :
    PruneBlocks emptyWritableTx
        ⟨10, 0, 4, 10, fun _ _ _ => [], fun _ _ => []⟩ [] 5 =
      Except.error Err.DomainError :=
  (pruneBlocks_spec emptyWritableTx
      ⟨10, 0, 4, 10, fun _ _ _ => [], fun _ _ => []⟩ [] 5 rfl rfl).1
    (by norm_num)

/-- `bulkFetchData`: a block location plus the index of the request it
answers. -/
structure bulkFetchData where
  location : BlockLoc
  replyIndex : Nat
  deriving DecidableEq, Repr

/-- `bulkFetchDataSorter.Less`: by file number, then offset. -/
def bulkLess (a b : bulkFetchData) : Bool :=
  if a.location.blockFileNum < b.location.blockFileNum then true
  else if b.location.blockFileNum < a.location.blockFileNum then false
  else decide (a.location.fileOffset < b.location.fileOffset)

/-- The non-strict order `sort.Sort` establishes: `¬Less(b, a)`. -/
def bulkLe (a b : bulkFetchData) : Prop := bulkLess b a = false

instance : DecidableRel bulkLe :=
  fun a b => inferInstanceAs (Decidable (bulkLess b a = false))

theorem bulkLess_iff (a b : bulkFetchData) :
    bulkLess a b = true ↔
      (a.location.blockFileNum < b.location.blockFileNum ∨
        (a.location.blockFileNum = b.location.blockFileNum ∧
          a.location.fileOffset < b.location.fileOffset)) := by
  unfold bulkLess
  split_ifs with h1 h2 <;> simp <;> omega

instance : IsTotal bulkFetchData bulkLe := by
  constructor
  intro a b
  unfold bulkLe
  rcases h1 : bulkLess b a with _ | _
  · exact Or.inl rfl
  · rcases h2 : bulkLess a b with _ | _
    · exact Or.inr rfl
    · exfalso
      have hba := (bulkLess_iff b a).mp h1
      have hab := (bulkLess_iff a b).mp h2
      omega

instance : IsTrans bulkFetchData bulkLe := by
  constructor
  intro a b c hab hbc
  unfold bulkLe at *
  rcases h : bulkLess c a with _ | _
  · rfl
  · exfalso
    have h1 := (bulkLess_iff c a).mp h
    have h2 : ¬(bulkLess b a = true) := by simp [hab]
    have h3 : ¬(bulkLess c b = true) := by simp [hbc]
    rw [bulkLess_iff] at h2 h3
    omega

/-- The first pass of `FetchBlockRegions`: resolve each region at its
input position `i`, satisfying pending regions inline (`some bytes` in
the reply slot) and collecting `(location, replyIndex)` fetch items for
the rest.  Deserialization failures propagate `deserializeBlockLoc`'s
own error (`Corruption` here, modelled from the spec's taxonomy; this
pass does not wrap it, unlike `FetchBlockRegion`). -/
def fetchScan (tx : Transaction) :
    List BlockRegion → Nat →
      Except Err (List (Option (List Nat)) × List bulkFetchData)
  | [], _ => Except.ok ([], [])
  | r :: rs, i =>
    match fetchPendingRegion tx r with
    | Except.error e => Except.error e
    | Except.ok (some bs) =>
      match fetchScan tx rs (i + 1) with
      | Except.error e => Except.error e
      | Except.ok (os, fl) => Except.ok (some bs :: os, fl)
    | Except.ok none =>
      match fetchBlockRow tx r.hash with
      | none => Except.error Err.BlockNotFound
      | some blockRow =>
        match deserializeBlockLoc blockRow with
        | none => Except.error Err.Corruption
        | some location =>
          let endOffset := (r.offset + r.len) % U32
          if endOffset < r.offset ∨ endOffset > location.blockLen then
            Except.error Err.BlockRegionInvalid
          else
            match fetchScan tx rs (i + 1) with
            | Except.error e => Except.error e
            | Except.ok (os, fl) =>
              Except.ok (none :: os, bulkFetchData.mk location i :: fl)

/-- One read of the second pass:
`store.readBlockRegion(location, region.Offset, region.Len)` for the
region the fetch item answers. -/
def readOf (env : StoreEnv) (regions : List BlockRegion)
    (fd : bulkFetchData) : List Nat :=
  env.readBlockRegion fd.location
    (regions.getD fd.replyIndex default).offset
    (regions.getD fd.replyIndex default).len

/-- The second pass: issue the (sorted) reads in list order, writing
each result into its reply slot. -/
def fetchFill (env : StoreEnv) (regions : List BlockRegion)
    (os : List (Option (List Nat))) :
    List bulkFetchData → List (Option (List Nat))
  | [] => os
  | fd :: rest =>
    fetchFill env regions
      (os.set fd.replyIndex (some (readOf env regions fd))) rest

/-- `transaction.FetchBlockRegions`: first pass, sort the fetch list by
`(fileNum, offset)`, second pass; every reply slot is filled on
success, so the final `Option.getD []` never fires. -/
def FetchBlockRegions (tx : Transaction) (env : StoreEnv)
    (regions : List BlockRegion) : Except Err (List (List Nat)) :=
  if tx.closed then Except.error Err.TxClosed
  else
    match fetchScan tx regions 0 with
    | Except.error e => Except.error e
    | Except.ok (os, fl) =>
      Except.ok
        ((fetchFill env regions os (List.insertionSort bulkLe fl)).map
          (Option.getD · []))

/-- `transaction.close`: mark closed, drop all pending state, release
the snapshot.  (Lock release and the MDBX rollback are concurrency/IO
effects outside the embedded state.) -/
def close (tx : Transaction) : Transaction :=
  { tx with
    closed := true
    pendingBlocks := []
    pendingBlockData := []
    pendingDelFileNums := []
    pendingKeys := ([] : List (List Nat × List Nat))
    pendingRemove := ([] : List (List Nat × List Nat))
    snapshot := none }

/-- Outcome of `Commit`/`Rollback`: normal return, error return, or
panic. -/
inductive TxOutcome where
  | ok
  | failed (e : Err)
  | panicked
  deriving DecidableEq, Repr

/-- The collaborators `writePendingAndCommit` drives, modelled from the
spec (§4.5, §4.3): success/failure oracles for each store and cache
operation, plus the write cursor read under `wc.RLock` before the
append loop.  `writeBlockRes i` is the result of the `i`-th
`store.writeBlock` call, `idxPutOk i` of the `i`-th block-index `Put`.
`commitTx` failing swaps no cache root (spec §4.3). -/
structure CommitEnv where
  deleteFileOk : Nat → Bool
  writeBlockRes : Nat → Option BlockLoc
  idxPutOk : Nat → Bool
  writeLocPutOk : Bool
  commitTxOk : Bool
  mdbCommitOk : Bool
  wcFileNum : Nat
  wcOffset : Nat

/-- Events on the store/cache, in the order `writePendingAndCommit`
performs them.  `rback f o` is `store.handleRollback(f, o)`. -/
inductive CAct where
  | delFile (n : Nat)
  | wblock (i : Nat)
  | idxPut (i : Nat)
  | metaPut
  | commitCache
  | rback (fileNum offset : Nat)
  deriving DecidableEq, Repr

/-- The pending-deletion loop: `store.deleteFileFunc(fileNum)` for each
file, returning the error immediately on failure (no rollback). -/
def delLoop (cenv : CommitEnv) : List Nat → Option Err × List CAct
  | [] => (none, [])
  | n :: rest =>
    if cenv.deleteFileOk n then
      let r := delLoop cenv rest
      (r.1, CAct.delFile n :: r.2)
    else (some Err.DriverSpecific, [CAct.delFile n])

/-- The pending-block loop: `store.writeBlock` then
`blockIdxBucket.Put` per block; on either failure, `rollback()` —
which calls `handleRollback` with the anchored cursor position — and
return. -/
def writeLoop (cenv : CommitEnv) :
    Nat → List PendingBlock → Option Err × List CAct
  | _, [] => (none, [])
  | i, _pb :: rest =>
    match cenv.writeBlockRes i with
    | none =>
      (some Err.DriverSpecific,
        [CAct.wblock i, CAct.rback cenv.wcFileNum cenv.wcOffset])
    | some _loc =>
      if cenv.idxPutOk i then
        let r := writeLoop cenv (i + 1) rest
        (r.1, CAct.wblock i :: CAct.idxPut i :: r.2)
      else
        (some Err.DriverSpecific,
          [CAct.wblock i, CAct.idxPut i,
            CAct.rback cenv.wcFileNum cenv.wcOffset])

/-- `transaction.writePendingAndCommit`: deletions first; snapshot the
write cursor as the rollback anchor; append pending blocks; put the
write-cursor row (rollback on failure); finally `cache.commitTx`,
whose error is returned directly — with no rollback call, exactly as in
the source (`return tx.db.cache.commitTx(tx)`). -/
def writePendingAndCommit (tx : Transaction) (cenv : CommitEnv) :
    Option Err × List CAct :=
  let d := delLoop cenv tx.pendingDelFileNums
  match d.1 with
  | some e => (some e, d.2)
  | none =>
    let w := writeLoop cenv 0 tx.pendingBlockData
    match w.1 with
    | some e => (some e, d.2 ++ w.2)
    | none =>
      if cenv.writeLocPutOk then
        if cenv.commitTxOk then
          (none, d.2 ++ w.2 ++ [CAct.metaPut, CAct.commitCache])
        else
          (some Err.DriverSpecific,
            d.2 ++ w.2 ++ [CAct.metaPut, CAct.commitCache])
      else
        (some Err.DriverSpecific,
          d.2 ++ w.2 ++ [CAct.metaPut,
            CAct.rback cenv.wcFileNum cenv.wcOffset])

/-- Modelled from the spec (§4.3): the cache publishes `newRoot` only
when the whole commit path succeeds; any failure leaves `root`. -/
def cacheRootAfter (root newRoot : Nat) (tx : Transaction)
    (cenv : CommitEnv) : Nat :=
  if (writePendingAndCommit tx cenv).1 = none then newRoot else root

/-- `transaction.Commit`.  The `defer tx.close()` runs on every path
after the closed check; the paired MDBX commit follows a successful
`writePendingAndCommit`. -/
def Commit (tx : Transaction) (cenv : CommitEnv) :
    TxOutcome × Transaction :=
  if tx.managed then (TxOutcome.panicked, close tx)
  else if tx.closed then (TxOutcome.failed Err.TxClosed, tx)
  else if !tx.writable then (TxOutcome.failed Err.TxNotWritable, close tx)
  else
    match (writePendingAndCommit tx cenv).1 with
    | some e => (TxOutcome.failed e, close tx)
    | none =>
      if cenv.mdbCommitOk then (TxOutcome.ok, close tx)
      else (TxOutcome.failed Err.DriverSpecific, close tx)

/-- `transaction.Rollback`. -/
def Rollback (tx : Transaction) : TxOutcome × Transaction :=
  if tx.managed then (TxOutcome.panicked, close tx)
  else if tx.closed then (TxOutcome.failed Err.TxClosed, tx)
  else (TxOutcome.ok, close tx)

/-- C9: on a managed transaction, `Commit` and `Rollback` first close
the transaction — releasing every pending set and the snapshot — and
then panic; neither ever returns normally or with an error. -/
theorem managed_panics (tx : Transaction) (cenv : CommitEnv)
    (hm : tx.managed = true) :
    Commit tx cenv = (TxOutcome.panicked, close tx) ∧
    Rollback tx = (TxOutcome.panicked, close tx) ∧
    (close tx).closed = true ∧
    (close tx).pendingBlocks = [] ∧
    (close tx).pendingBlockData = [] ∧
    (close tx).pendingDelFileNums = [] ∧
    (close tx).pendingKeys = ([] : List (List Nat × List Nat)) ∧
    (close tx).pendingRemove = ([] : List (List Nat × List Nat)) ∧
    (close tx).snapshot = none := by
  refine ⟨?_, ?_, rfl, rfl, rfl, rfl, rfl, rfl, rfl⟩ <;>
    simp [Commit, Rollback, hm]

/-- Witness for `managed_panics` at a concrete managed transaction. -/
theorem managed_panics_witness :
    Commit { emptyWritableTx with managed := true }
        ⟨fun _ => true, fun _ => some default, fun _ => true,
          true, true, true, 0, 0⟩ =
      (TxOutcome.panicked, close { emptyWritableTx with managed := true }) :=
  (managed_panics { emptyWritableTx with managed := true }
    ⟨fun _ => true, fun _ => some default, fun _ => true,
      true, true, true, 0, 0⟩ rfl).1

/-- Counterexample to C5 as stated: on a closed transaction,
`BeenPruned` does not fail with `TxClosed` — the source performs no
closed check there and returns the scan-derived boolean. -/
theorem beenPruned_ignores_closed :
    ({ emptyWritableTx with closed := true } : Transaction).closed = true ∧
    BeenPruned { emptyWritableTx with closed := true }
        ⟨10, 1, 3, 5, fun _ _ _ => [], fun _ _ => []⟩ = Except.ok true :=
  ⟨rfl, rfl⟩

/-- C5 (amended): on a closed transaction every listed public
operation fails with `TxClosed` — except `BeenPruned`, which performs
no closed check and returns a scan-derived boolean.  (`Commit` and
`Rollback` are taken unmanaged; on a managed transaction they panic
instead.) -/
theorem closed_tx_ops (tx : Transaction) (env : StoreEnv)
    (cenv : CommitEnv) (hc : tx.closed = true) (hm : tx.managed = false) :
    (∀ h, HasBlock tx h = Except.error Err.TxClosed) ∧
    (∀ hs, HasBlocks tx hs = Except.error Err.TxClosed) ∧
    (∀ b, StoreBlock tx b = (tx, some Err.TxClosed)) ∧
    (∀ h, FetchBlock tx env h = Except.error Err.TxClosed) ∧
    (∀ hs, FetchBlocks tx env hs = Except.error Err.TxClosed) ∧
    (∀ r, FetchBlockRegion tx env r = Except.error Err.TxClosed) ∧
    (∀ rs, FetchBlockRegions tx env rs = Except.error Err.TxClosed) ∧
    (∀ entries t, PruneBlocks tx env entries t =
      Except.error Err.TxClosed) ∧
    (Commit tx cenv).1 = TxOutcome.failed Err.TxClosed ∧
    (Rollback tx).1 = TxOutcome.failed Err.TxClosed ∧
    (∃ b, BeenPruned tx env = Except.ok b) := by
  refine ⟨?_, ?_, ?_, ?_, ?_, ?_, ?_, ?_, ?_, ?_, ?_⟩
  · intro h; simp [HasBlock, hc]
  · intro hs; simp [HasBlocks, hc]
  · intro b; simp [StoreBlock, hc]
  · intro h; simp [FetchBlock, hc]
  · intro hs; simp [FetchBlocks, hc]
  · intro r; simp [FetchBlockRegion, hc]
  · intro rs; simp [FetchBlockRegions, hc]
  · intro entries t; simp [PruneBlocks, hc]
  · simp [Commit, hm, hc]
  · simp [Rollback, hm, hc]
  · exact ⟨_, rfl⟩

/-- Witness for `closed_tx_ops` at a concrete closed transaction. -/
theorem closed_tx_ops_witness :
    HasBlock { emptyWritableTx with closed := true } 5 =
      Except.error Err.TxClosed :=
  (closed_tx_ops { emptyWritableTx with closed := true }
      ⟨10, 1, 3, 5, fun _ _ _ => [], fun _ _ => []⟩
      ⟨fun _ => true, fun _ => some default, fun _ => true,
        true, true, true, 0, 0⟩ rfl rfl).1 5

theorem delLoop_trace (cenv : CommitEnv) (l : List Nat) :
    ∃ k, (delLoop cenv l).2 = (l.take k).map CAct.delFile ∧
      ((delLoop cenv l).1 = none → k = l.length) := by
  induction l with
  | nil => exact ⟨0, rfl, fun _ => rfl⟩
  | cons n rest ih =>
    by_cases h : cenv.deleteFileOk n
    · obtain ⟨k, hk, hnone⟩ := ih
      refine ⟨k + 1, ?_, ?_⟩
      · simp [delLoop, h, hk]
      · intro hno
        simp only [delLoop, h, if_true] at hno
        simp [hnone hno]
    · refine ⟨1, by simp [delLoop, h], ?_⟩
      intro hno
      simp [delLoop, h] at hno

theorem writeLoop_no_delFile (cenv : CommitEnv) (l : List PendingBlock) :
    ∀ i, ∀ a ∈ (writeLoop cenv i l).2, ∀ n, a ≠ CAct.delFile n := by
  induction l with
  | nil => intro i a ha; simp [writeLoop] at ha
  | cons pb rest ih =>
    intro i a ha n
    rcases hw : cenv.writeBlockRes i with _ | loc
    · simp [writeLoop, hw] at ha
      rcases ha with h | h <;> simp [h]
    · by_cases hp : cenv.idxPutOk i
      · simp [writeLoop, hw, hp] at ha
        rcases ha with h | h | h
        · simp [h]
        · simp [h]
        · exact ih (i + 1) a h n
      · simp [writeLoop, hw, hp] at ha
        rcases ha with h | h | h <;> simp [h]

theorem writeLoop_rback_anchor (cenv : CommitEnv) (l : List PendingBlock) :
    ∀ i f o, CAct.rback f o ∈ (writeLoop cenv i l).2 →
      f = cenv.wcFileNum ∧ o = cenv.wcOffset := by
  induction l with
  | nil => intro i f o h; simp [writeLoop] at h
  | cons pb rest ih =>
    intro i f o h
    rcases hw : cenv.writeBlockRes i with _ | loc
    · simp [writeLoop, hw] at h
      exact ⟨h.1, h.2⟩
    · by_cases hp : cenv.idxPutOk i
      · simp [writeLoop, hw, hp] at h
        exact ih (i + 1) f o h
      · simp [writeLoop, hw, hp] at h
        exact ⟨h.1, h.2⟩

theorem writeLoop_fail_trace (cenv : CommitEnv) (l : List PendingBlock) :
    ∀ i e, (writeLoop cenv i l).1 = some e →
      ∃ pre, (writeLoop cenv i l).2 =
        pre ++ [CAct.rback cenv.wcFileNum cenv.wcOffset] := by
  induction l with
  | nil => intro i e h; simp [writeLoop] at h
  | cons pb rest ih =>
    intro i e h
    rcases hw : cenv.writeBlockRes i with _ | loc
    · exact ⟨[CAct.wblock i], by simp [writeLoop, hw]⟩
    · by_cases hp : cenv.idxPutOk i
      · simp only [writeLoop, hw, hp, if_true] at h ⊢
        obtain ⟨pre, hpre⟩ := ih (i + 1) e h
        exact ⟨CAct.wblock i :: CAct.idxPut i :: pre, by simp [hpre]⟩
      · exact ⟨[CAct.wblock i, CAct.idxPut i], by simp [writeLoop, hw, hp]⟩

theorem writeLoop_ok_no_rback (cenv : CommitEnv) (l : List PendingBlock) :
    ∀ i, (writeLoop cenv i l).1 = none →
      ∀ f o, CAct.rback f o ∉ (writeLoop cenv i l).2 := by
  induction l with
  | nil => intro i _ f o h; simp [writeLoop] at h
  | cons pb rest ih =>
    intro i hok f o h
    rcases hw : cenv.writeBlockRes i with _ | loc
    · simp [writeLoop, hw] at hok
    · by_cases hp : cenv.idxPutOk i
      · simp only [writeLoop, hw, hp, if_true] at hok h
        simp only [List.mem_cons] at h
        rcases h with h1 | h1 | h1
        · exact absurd h1 (by simp)
        · exact absurd h1 (by simp)
        · exact ih (i + 1) hok f o h1
      · simp [writeLoop, hw, hp] at hok

theorem wpc_eq_delFail (tx : Transaction) (cenv : CommitEnv) (e : Err)
    (hd : (delLoop cenv tx.pendingDelFileNums).1 = some e) :
    writePendingAndCommit tx cenv =
      (some e, (delLoop cenv tx.pendingDelFileNums).2) := by
  simp [writePendingAndCommit, hd]

theorem wpc_eq_writeFail (tx : Transaction) (cenv : CommitEnv) (e : Err)
    (hd : (delLoop cenv tx.pendingDelFileNums).1 = none)
    (hw : (writeLoop cenv 0 tx.pendingBlockData).1 = some e) :
    writePendingAndCommit tx cenv =
      (some e, (delLoop cenv tx.pendingDelFileNums).2 ++
        (writeLoop cenv 0 tx.pendingBlockData).2) := by
  simp [writePendingAndCommit, hd, hw]

theorem wpc_eq_putFail (tx : Transaction) (cenv : CommitEnv)
    (hd : (delLoop cenv tx.pendingDelFileNums).1 = none)
    (hw : (writeLoop cenv 0 tx.pendingBlockData).1 = none)
    (hput : cenv.writeLocPutOk = false) :
    writePendingAndCommit tx cenv =
      (some Err.DriverSpecific,
        (delLoop cenv tx.pendingDelFileNums).2 ++
          (writeLoop cenv 0 tx.pendingBlockData).2 ++
          [CAct.metaPut, CAct.rback cenv.wcFileNum cenv.wcOffset]) := by
  simp [writePendingAndCommit, hd, hw, hput]

theorem wpc_eq_commitFail (tx : Transaction) (cenv : CommitEnv)
    (hd : (delLoop cenv tx.pendingDelFileNums).1 = none)
    (hw : (writeLoop cenv 0 tx.pendingBlockData).1 = none)
    (hput : cenv.writeLocPutOk = true) (hct : cenv.commitTxOk = false) :
    writePendingAndCommit tx cenv =
      (some Err.DriverSpecific,
        (delLoop cenv tx.pendingDelFileNums).2 ++
          (writeLoop cenv 0 tx.pendingBlockData).2 ++
          [CAct.metaPut, CAct.commitCache]) := by
  simp [writePendingAndCommit, hd, hw, hput, hct]

theorem wpc_eq_ok (tx : Transaction) (cenv : CommitEnv)
    (hd : (delLoop cenv tx.pendingDelFileNums).1 = none)
    (hw : (writeLoop cenv 0 tx.pendingBlockData).1 = none)
    (hput : cenv.writeLocPutOk = true) (hct : cenv.commitTxOk = true) :
    writePendingAndCommit tx cenv =
      (none,
        (delLoop cenv tx.pendingDelFileNums).2 ++
          (writeLoop cenv 0 tx.pendingBlockData).2 ++
          [CAct.metaPut, CAct.commitCache]) := by
  simp [writePendingAndCommit, hd, hw, hput, hct]

theorem delFile_trace_no_rback (l : List Nat) (k f o : Nat)
    (h : CAct.rback f o ∈ (l.take k).map CAct.delFile) : False := by
  obtain ⟨x, _, hx⟩ := List.mem_map.mp h
  exact absurd hx (by simp)

/-- C2 (amended): `writePendingAndCommit` applies every pending file
deletion before any block append (the action trace is a `delFile`
prefix followed by delete-free actions); every `handleRollback` it
issues uses the cursor position anchored before the append loop; a
`writeBlock` or block-index `Put` failure, and a `writeLocKeyName`
`Put` failure, end the trace with that rollback and return the error;
but a `cache.commitTx` failure returns the error *without invoking
`handleRollback`* (the correction to the claim); any failure leaves
the cache root unmodified. -/
theorem writePendingAndCommit_amended (tx : Transaction)
    (cenv : CommitEnv) (root newRoot : Nat) :
    (∃ k wtr,
      (writePendingAndCommit tx cenv).2 =
        (tx.pendingDelFileNums.take k).map CAct.delFile ++ wtr ∧
      (∀ a ∈ wtr, ∀ n, a ≠ CAct.delFile n) ∧
      (k = tx.pendingDelFileNums.length ∨ wtr = [])) ∧
    (∀ f o, CAct.rback f o ∈ (writePendingAndCommit tx cenv).2 →
      f = cenv.wcFileNum ∧ o = cenv.wcOffset) ∧
    ((delLoop cenv tx.pendingDelFileNums).1 = none →
      ∀ e, (writeLoop cenv 0 tx.pendingBlockData).1 = some e →
      (writePendingAndCommit tx cenv).1 = some e ∧
      ∃ pre, (writePendingAndCommit tx cenv).2 =
        pre ++ [CAct.rback cenv.wcFileNum cenv.wcOffset]) ∧
    ((delLoop cenv tx.pendingDelFileNums).1 = none →
      (writeLoop cenv 0 tx.pendingBlockData).1 = none →
      cenv.writeLocPutOk = false →
      (writePendingAndCommit tx cenv).1 = some Err.DriverSpecific ∧
      ∃ pre, (writePendingAndCommit tx cenv).2 =
        pre ++ [CAct.rback cenv.wcFileNum cenv.wcOffset]) ∧
    ((delLoop cenv tx.pendingDelFileNums).1 = none →
      (writeLoop cenv 0 tx.pendingBlockData).1 = none →
      cenv.writeLocPutOk = true → cenv.commitTxOk = false →
      (writePendingAndCommit tx cenv).1 = some Err.DriverSpecific ∧
      ∀ f o, CAct.rback f o ∉ (writePendingAndCommit tx cenv).2) ∧
    (∀ e, (writePendingAndCommit tx cenv).1 = some e →
      cacheRootAfter root newRoot tx cenv = root) := by
  obtain ⟨k, hdk, hdnone⟩ := delLoop_trace cenv tx.pendingDelFileNums
  refine ⟨?_, ?_, ?_, ?_, ?_, ?_⟩
  · -- deletions form a prefix of the trace
    rcases hd : (delLoop cenv tx.pendingDelFileNums).1 with _ | e
    · rcases hw : (writeLoop cenv 0 tx.pendingBlockData).1 with _ | e2
      · by_cases hput : cenv.writeLocPutOk = true
        · rcases hct : cenv.commitTxOk with _ | _
          · refine ⟨k, (writeLoop cenv 0 tx.pendingBlockData).2 ++
              [CAct.metaPut, CAct.commitCache], ?_, ?_, Or.inl (hdnone hd)⟩
            · rw [wpc_eq_commitFail tx cenv hd hw hput hct, hdk,
                List.append_assoc]
            · intro a ha n
              rcases List.mem_append.mp ha with h1 | h1
              · exact writeLoop_no_delFile cenv tx.pendingBlockData 0 a h1 n
              · simp only [List.mem_cons, List.mem_singleton] at h1
                rcases h1 with h2 | h2 | h2
                · simp [h2]
                · simp [h2]
                · simp at h2
          · refine ⟨k, (writeLoop cenv 0 tx.pendingBlockData).2 ++
              [CAct.metaPut, CAct.commitCache], ?_, ?_, Or.inl (hdnone hd)⟩
            · rw [wpc_eq_ok tx cenv hd hw hput hct, hdk, List.append_assoc]
            · intro a ha n
              rcases List.mem_append.mp ha with h1 | h1
              · exact writeLoop_no_delFile cenv tx.pendingBlockData 0 a h1 n
              · simp only [List.mem_cons, List.mem_singleton] at h1
                rcases h1 with h2 | h2 | h2
                · simp [h2]
                · simp [h2]
                · simp at h2
        · have hput' : cenv.writeLocPutOk = false := by
            rcases h : cenv.writeLocPutOk with _ | _
            · rfl
            · exact absurd h hput
          refine ⟨k, (writeLoop cenv 0 tx.pendingBlockData).2 ++
            [CAct.metaPut, CAct.rback cenv.wcFileNum cenv.wcOffset],
            ?_, ?_, Or.inl (hdnone hd)⟩
          · rw [wpc_eq_putFail tx cenv hd hw hput', hdk, List.append_assoc]
          · intro a ha n
            rcases List.mem_append.mp ha with h1 | h1
            · exact writeLoop_no_delFile cenv tx.pendingBlockData 0 a h1 n
            · simp only [List.mem_cons, List.mem_singleton] at h1
              rcases h1 with h2 | h2 | h2
              · simp [h2]
              · simp [h2]
              · simp at h2
      · refine ⟨k, (writeLoop cenv 0 tx.pendingBlockData).2, ?_, ?_,
          Or.inl (hdnone hd)⟩
        · rw [wpc_eq_writeFail tx cenv e2 hd hw, hdk]
        · intro a ha n
          exact writeLoop_no_delFile cenv tx.pendingBlockData 0 a ha n
    · refine ⟨k, [], ?_, by simp, Or.inr rfl⟩
      rw [wpc_eq_delFail tx cenv e hd, hdk, List.append_nil]
  · -- every rollback is anchored
    intro f o hmem
    rcases hd : (delLoop cenv tx.pendingDelFileNums).1 with _ | e
    · rcases hw : (writeLoop cenv 0 tx.pendingBlockData).1 with _ | e2
      · by_cases hput : cenv.writeLocPutOk = true
        · rcases hct : cenv.commitTxOk with _ | _
          · rw [wpc_eq_commitFail tx cenv hd hw hput hct] at hmem
            rcases List.mem_append.mp hmem with h1 | h1
            · rcases List.mem_append.mp h1 with h2 | h2
              · exact absurd (hdk ▸ h2)
                  (fun hh => delFile_trace_no_rback _ _ f o hh)
              · exact writeLoop_rback_anchor cenv tx.pendingBlockData 0 f o h2
            · simp only [List.mem_cons, List.mem_singleton] at h1
              rcases h1 with h2 | h2 | h2 <;> simp at h2
          · rw [wpc_eq_ok tx cenv hd hw hput hct] at hmem
            rcases List.mem_append.mp hmem with h1 | h1
            · rcases List.mem_append.mp h1 with h2 | h2
              · exact absurd (hdk ▸ h2)
                  (fun hh => delFile_trace_no_rback _ _ f o hh)
              · exact writeLoop_rback_anchor cenv tx.pendingBlockData 0 f o h2
            · simp only [List.mem_cons, List.mem_singleton] at h1
              rcases h1 with h2 | h2 | h2 <;> simp at h2
        · have hput' : cenv.writeLocPutOk = false := by
            rcases h : cenv.writeLocPutOk with _ | _
            · rfl
            · exact absurd h hput
          rw [wpc_eq_putFail tx cenv hd hw hput'] at hmem
          rcases List.mem_append.mp hmem with h1 | h1
          · rcases List.mem_append.mp h1 with h2 | h2
            · exact absurd (hdk ▸ h2)
                (fun hh => delFile_trace_no_rback _ _ f o hh)
            · exact writeLoop_rback_anchor cenv tx.pendingBlockData 0 f o h2
          · simp only [List.mem_cons, List.mem_singleton] at h1
            rcases h1 with h2 | h2 | h2
            · simp at h2
            · injection h2 with hf ho
              exact ⟨hf, ho⟩
            · simp at h2
      · rw [wpc_eq_writeFail tx cenv e2 hd hw] at hmem
        rcases List.mem_append.mp hmem with h1 | h1
        · exact absurd (hdk ▸ h1)
            (fun hh => delFile_trace_no_rback _ _ f o hh)
        · exact writeLoop_rback_anchor cenv tx.pendingBlockData 0 f o h1
    · rw [wpc_eq_delFail tx cenv e hd] at hmem
      exact absurd (hdk ▸ hmem)
        (fun hh => delFile_trace_no_rback _ _ f o hh)
  · -- append-loop failure rolls back to the anchor
    intro hd e hw
    rw [wpc_eq_writeFail tx cenv e hd hw]
    obtain ⟨pre, hpre⟩ := writeLoop_fail_trace cenv tx.pendingBlockData 0 e hw
    exact ⟨rfl, (delLoop cenv tx.pendingDelFileNums).2 ++ pre,
      by rw [hpre, List.append_assoc]⟩
  · -- write-cursor-row failure rolls back to the anchor
    intro hd hw hput
    rw [wpc_eq_putFail tx cenv hd hw hput]
    refine ⟨rfl, (delLoop cenv tx.pendingDelFileNums).2 ++
      (writeLoop cenv 0 tx.pendingBlockData).2 ++ [CAct.metaPut], ?_⟩
    simp
  · -- cache-commit failure: error returned, no rollback invoked
    intro hd hw hput hct
    rw [wpc_eq_commitFail tx cenv hd hw hput hct]
    refine ⟨rfl, ?_⟩
    intro f o hmem
    rcases List.mem_append.mp hmem with h1 | h1
    · rcases List.mem_append.mp h1 with h2 | h2
      · exact delFile_trace_no_rback _ _ f o (hdk ▸ h2)
      · exact writeLoop_ok_no_rback cenv tx.pendingBlockData 0 hw f o h2
    · simp only [List.mem_cons, List.mem_singleton] at h1
      rcases h1 with h2 | h2 | h2 <;> simp at h2
  · -- failures leave the cache root unmodified
    intro e he
    unfold cacheRootAfter
    rw [he]
    simp

/-- Counterexample to C2 as stated: with one pending block and a
failing `cache.commitTx`, the commit path fails after the block was
appended, yet issues no `handleRollback` at all. -/
theorem writePendingAndCommit_no_rollback_on_commitTx_failure :
    (writePendingAndCommit
        { emptyWritableTx with pendingBlockData := [⟨3, [1], 0⟩] }
        ⟨fun _ => true, fun _ => some ⟨0, 0, 1⟩, fun _ => true,
          true, false, true, 7, 9⟩).1 = some Err.DriverSpecific ∧
    (writePendingAndCommit
        { emptyWritableTx with pendingBlockData := [⟨3, [1], 0⟩] }
        ⟨fun _ => true, fun _ => some ⟨0, 0, 1⟩, fun _ => true,
          true, false, true, 7, 9⟩).2 =
      [CAct.wblock 0, CAct.idxPut 0, CAct.metaPut, CAct.commitCache] ∧
    ((writePendingAndCommit
        { emptyWritableTx with pendingBlockData := [⟨3, [1], 0⟩] }
        ⟨fun _ => true, fun _ => some ⟨0, 0, 1⟩, fun _ => true,
          true, false, true, 7, 9⟩).2.all fun a =>
      match a with
      | CAct.rback _ _ => false
      | _ => true) = true :=
  ⟨rfl, rfl, rfl⟩

/-- Witness for `writePendingAndCommit_amended`: the write-cursor-row
failure case at a concrete transaction and environment. -/
theorem writePendingAndCommit_amended_witness :
    (writePendingAndCommit
        { emptyWritableTx with pendingBlockData := [⟨3, [1], 0⟩] }
        ⟨fun _ => true, fun _ => some ⟨0, 0, 1⟩, fun _ => true,
          false, true, true, 7, 9⟩).1 = some Err.DriverSpecific ∧
    ∃ pre, (writePendingAndCommit
        { emptyWritableTx with pendingBlockData := [⟨3, [1], 0⟩] }
        ⟨fun _ => true, fun _ => some ⟨0, 0, 1⟩, fun _ => true,
          false, true, true, 7, 9⟩).2 = pre ++ [CAct.rback 7 9] :=
  (writePendingAndCommit_amended
      { emptyWritableTx with pendingBlockData := [⟨3, [1], 0⟩] }
      ⟨fun _ => true, fun _ => some ⟨0, 0, 1⟩, fun _ => true,
        false, true, true, 7, 9⟩ 0 1).2.2.2.1 rfl rfl rfl

theorem fetchFill_length (env : StoreEnv) (regions : List BlockRegion) :
    ∀ (items : List bulkFetchData) (os : List (Option (List Nat))),
      (fetchFill env regions os items).length = os.length := by
  intro items
  induction items with
  | nil => intro os; rfl
  | cons fd rest ih =>
    intro os
    simp only [fetchFill]
    rw [ih, List.length_set]

theorem fetchFill_get (env : StoreEnv) (regions : List BlockRegion) :
    ∀ (items : List bulkFetchData) (os : List (Option (List Nat))) (j : Nat),
      (items.map (fun fd => fd.replyIndex)).Nodup →
      (∀ fd ∈ items, fd.replyIndex < os.length) →
      (fetchFill env regions os items)[j]? =
        (match items.find? (fun fd => decide (fd.replyIndex = j)) with
         | some fd => some (some (readOf env regions fd))
         | none => os[j]?) := by
  intro items
  induction items with
  | nil => intro os j _ _; rfl
  | cons fd rest ih =>
    intro os j hnd hbound
    have hndtail : (rest.map (fun fd => fd.replyIndex)).Nodup := by
      simp only [List.map_cons, List.nodup_cons] at hnd
      exact hnd.2
    have hnotin : fd.replyIndex ∉ rest.map (fun fd => fd.replyIndex) := by
      simp only [List.map_cons, List.nodup_cons] at hnd
      exact hnd.1
    have hboundtail : ∀ fd' ∈ rest,
        fd'.replyIndex < (os.set fd.replyIndex
          (some (readOf env regions fd))).length := by
      intro fd' hm
      rw [List.length_set]
      exact hbound fd' (List.mem_cons_of_mem fd hm)
    have hstep : fetchFill env regions os (fd :: rest) =
        fetchFill env regions
          (os.set fd.replyIndex (some (readOf env regions fd))) rest := rfl
    rw [hstep, ih _ j hndtail hboundtail]
    by_cases hj : fd.replyIndex = j
    · have hfind : List.find? (fun fd => decide (fd.replyIndex = j))
          (fd :: rest) = some fd :=
        List.find?_cons_of_pos rest (by simp [hj])
      have hrest : List.find? (fun fd => decide (fd.replyIndex = j))
          rest = none := by
        rw [List.find?_eq_none]
        intro x hx
        simp only [decide_eq_true_eq]
        intro he
        exact hnotin (hj ▸ he ▸ List.mem_map_of_mem (fun fd => fd.replyIndex) hx)
      rw [hfind, hrest]
      rw [← hj]
      exact List.getElem?_set_self (hbound fd (List.mem_cons_self fd rest))
    · have hfind : List.find? (fun fd => decide (fd.replyIndex = j))
          (fd :: rest) = List.find? (fun fd => decide (fd.replyIndex = j))
            rest :=
        List.find?_cons_of_neg rest (by simp [hj])
      rw [hfind]
      rcases hf : List.find? (fun fd => decide (fd.replyIndex = j)) rest
        with _ | fd'
      · rw [hf]
        exact List.getElem?_set_ne hj
      · rw [hf]

theorem fetchPendingRegion_ok_none (tx : Transaction) (r : BlockRegion)
    (h : fetchPendingRegion tx r = Except.ok none) :
    lookupAssoc tx.pendingBlocks r.hash = none := by
  rcases hl : lookupAssoc tx.pendingBlocks r.hash with _ | idx
  · rfl
  · exfalso
    simp only [fetchPendingRegion, hl] at h
    split at h
    · exact Except.noConfusion h
    · simp at h

theorem fetchScan_spec (tx : Transaction) :
    ∀ (rs : List BlockRegion) (i : Nat) (os : List (Option (List Nat)))
      (fl : List bulkFetchData),
      fetchScan tx rs i = Except.ok (os, fl) →
      os.length = rs.length ∧
      List.Pairwise (fun a b => a.replyIndex < b.replyIndex) fl ∧
      (∀ fd ∈ fl, i ≤ fd.replyIndex ∧ fd.replyIndex < i + rs.length ∧
        lookupAssoc tx.pendingBlocks
          ((rs.getD (fd.replyIndex - i) default).hash) = none) ∧
      (∀ j, j < rs.length →
        (∀ e, fetchPendingRegion tx (rs.getD j default) ≠
          Except.error e) ∧
        (∀ bs, fetchPendingRegion tx (rs.getD j default) =
            Except.ok (some bs) →
          os[j]? = some (some bs) ∧ ∀ fd ∈ fl, fd.replyIndex ≠ i + j) ∧
        (fetchPendingRegion tx (rs.getD j default) = Except.ok none →
          ∃ row loc,
            fetchBlockRow tx (rs.getD j default).hash = some row ∧
            deserializeBlockLoc row = some loc ∧
            ¬(((rs.getD j default).offset + (rs.getD j default).len) % U32 <
              (rs.getD j default).offset) ∧
            ¬(loc.blockLen <
              ((rs.getD j default).offset + (rs.getD j default).len) % U32) ∧
            os[j]? = some none ∧
            bulkFetchData.mk loc (i + j) ∈ fl)) := by
  intro rs
  induction rs with
  | nil =>
    intro i os fl h
    simp only [fetchScan, Except.ok.injEq, Prod.mk.injEq] at h
    obtain ⟨h1, h2⟩ := h
    subst h1
    subst h2
    refine ⟨rfl, List.Pairwise.nil, ?_, ?_⟩
    · intro fd hfd
      simp at hfd
    · intro j hj
      simp at hj
  | cons r rs' ih =>
    intro i os fl h
    simp only [fetchScan] at h
    rcases hp : fetchPendingRegion tx r with e | obs
    · simp only [hp] at h
      exact Except.noConfusion h
    · rcases obs with _ | bs
      · -- non-pending head
        simp only [hp] at h
        rcases hrow : fetchBlockRow tx r.hash with _ | row
        · simp only [hrow] at h
          exact Except.noConfusion h
        · simp only [hrow] at h
          rcases hloc : deserializeBlockLoc row with _ | loc
          · simp only [hloc] at h
            exact Except.noConfusion h
          · simp only [hloc] at h
            by_cases hcond : (r.offset + r.len) % U32 < r.offset ∨
                (r.offset + r.len) % U32 > loc.blockLen
            · rw [if_pos hcond] at h
              exact Except.noConfusion h
            · rw [if_neg hcond] at h
              rcases hsc : fetchScan tx rs' (i + 1) with e2 | p
              · simp only [hsc] at h
                exact Except.noConfusion h
              · rcases p with ⟨os', fl'⟩
                simp only [hsc, Except.ok.injEq, Prod.mk.injEq] at h
                obtain ⟨h1, h2⟩ := h
                subst h1
                subst h2
                obtain ⟨IH1, IH2, IH3, IH4⟩ := ih (i + 1) os' fl' hsc
                refine ⟨by simp [IH1], ?_, ?_, ?_⟩
                · refine List.Pairwise.cons ?_ IH2
                  intro fd hfd
                  have := (IH3 fd hfd).1
                  show i < fd.replyIndex
                  omega
                · intro fd hfd
                  rcases List.mem_cons.mp hfd with he | hm
                  · subst he
                    refine ⟨le_refl i, ?_, ?_⟩
                    · simp only [List.length_cons]
                      omega
                    · simp only [Nat.sub_self, List.getD_cons_zero]
                      exact fetchPendingRegion_ok_none tx r hp
                  · obtain ⟨ha, hb, hc2⟩ := IH3 fd hm
                    refine ⟨by omega, ?_, ?_⟩
                    · simp only [List.length_cons]
                      omega
                    · have hsub : fd.replyIndex - i =
                          (fd.replyIndex - (i + 1)) + 1 := by omega
                      rw [hsub, List.getD_cons_succ]
                      exact hc2
                · intro j hj
                  rcases j with _ | j'
                  · refine ⟨?_, ?_, ?_⟩
                    · intro e he
                      rw [List.getD_cons_zero, hp] at he
                      exact Except.noConfusion he
                    · intro bs' hbs
                      rw [List.getD_cons_zero, hp] at hbs
                      simp at hbs
                    · intro _
                      simp only [List.getD_cons_zero]
                      refine ⟨row, loc, hrow, hloc, ?_, ?_,
                        List.getElem?_cons_zero, ?_⟩
                      · intro hcc
                        exact hcond (Or.inl hcc)
                      · intro hcc
                        exact hcond (Or.inr hcc)
                      · rw [Nat.add_zero]
                        exact List.mem_cons_self _ _
                  · have hj' : j' < rs'.length := by
                      simp only [List.length_cons] at hj
                      omega
                    obtain ⟨P1, P2, P3⟩ := IH4 j' hj'
                    refine ⟨?_, ?_, ?_⟩
                    · rw [List.getD_cons_succ]
                      exact P1
                    · intro bs' hbs
                      rw [List.getD_cons_succ] at hbs
                      obtain ⟨ho, hfl2⟩ := P2 bs' hbs
                      refine ⟨?_, ?_⟩
                      · rw [List.getElem?_cons_succ]
                        exact ho
                      · intro fd hfd
                        rcases List.mem_cons.mp hfd with he | hm
                        · subst he
                          show i ≠ i + (j' + 1)
                          omega
                        · have := hfl2 fd hm
                          omega
                    · intro hnone
                      rw [List.getD_cons_succ] at hnone
                      obtain ⟨row2, loc2, a1, a2, a3, a4, a5, a6⟩ := P3 hnone
                      simp only [List.getD_cons_succ, List.getElem?_cons_succ]
                      refine ⟨row2, loc2, a1, a2, a3, a4, a5, ?_⟩
                      have hadd : i + (j' + 1) = (i + 1) + j' := by omega
                      rw [hadd]
                      exact List.mem_cons_of_mem _ a6
      · -- pending head
        simp only [hp] at h
        rcases hsc : fetchScan tx rs' (i + 1) with e2 | p
        · simp only [hsc] at h
          exact Except.noConfusion h
        · rcases p with ⟨os', fl'⟩
          simp only [hsc, Except.ok.injEq, Prod.mk.injEq] at h
          obtain ⟨h1, h2⟩ := h
          subst h1
          subst h2
          obtain ⟨IH1, IH2, IH3, IH4⟩ := ih (i + 1) os' fl' hsc
          refine ⟨by simp [IH1], IH2, ?_, ?_⟩
          · intro fd hfd
            obtain ⟨ha, hb, hc2⟩ := IH3 fd hfd
            refine ⟨by omega, ?_, ?_⟩
            · simp only [List.length_cons]
              omega
            · have hsub : fd.replyIndex - i =
                  (fd.replyIndex - (i + 1)) + 1 := by omega
              rw [hsub, List.getD_cons_succ]
              exact hc2
          · intro j hj
            rcases j with _ | j'
            · refine ⟨?_, ?_, ?_⟩
              · intro e he
                rw [List.getD_cons_zero, hp] at he
                exact Except.noConfusion he
              · intro bs' hbs
                rw [List.getD_cons_zero, hp] at hbs
                have hbs' : bs = bs' := by
                  simpa using hbs
                subst hbs'
                refine ⟨List.getElem?_cons_zero, ?_⟩
                intro fd hfd
                have := (IH3 fd hfd).1
                omega
              · intro hnone
                rw [List.getD_cons_zero, hp] at hnone
                simp at hnone
            · have hj' : j' < rs'.length := by
                simp only [List.length_cons] at hj
                omega
              obtain ⟨P1, P2, P3⟩ := IH4 j' hj'
              refine ⟨?_, ?_, ?_⟩
              · rw [List.getD_cons_succ]
                exact P1
              · intro bs' hbs
                rw [List.getD_cons_succ] at hbs
                obtain ⟨ho, hfl2⟩ := P2 bs' hbs
                refine ⟨?_, ?_⟩
                · rw [List.getElem?_cons_succ]
                  exact ho
                · intro fd hfd
                  have := hfl2 fd hfd
                  omega
              · intro hnone
                rw [List.getD_cons_succ] at hnone
                obtain ⟨row2, loc2, a1, a2, a3, a4, a5, a6⟩ := P3 hnone
                simp only [List.getD_cons_succ, List.getElem?_cons_succ]
                refine ⟨row2, loc2, a1, a2, a3, a4, a5, ?_⟩
                have hadd : i + (j' + 1) = (i + 1) + j' := by omega
                rw [hadd]
                exact a6

/-- C4: on success, `FetchBlockRegions` returns one entry per input
region, in input order, each equal to what `FetchBlockRegion` returns
for that region — pending regions are satisfied inline and never enter
the fetch list, whose sorted issue order is ascending in
`(fileNum, offset)` and a permutation of the unsorted list; the
`Except` result type makes the first error abort with no results. -/
theorem fetchBlockRegions_spec (tx : Transaction) (env : StoreEnv)
    (regions : List BlockRegion) :
    (∀ bs, FetchBlockRegions tx env regions = Except.ok bs →
      bs.length = regions.length ∧
      ∀ j, j < regions.length →
        FetchBlockRegion tx env (regions.getD j default) =
          Except.ok (bs.getD j [])) ∧
    (∀ os fl, fetchScan tx regions 0 = Except.ok (os, fl) →
      List.Sorted bulkLe (List.insertionSort bulkLe fl) ∧
      (List.insertionSort bulkLe fl).Perm fl ∧
      ∀ fd ∈ fl, fd.replyIndex < regions.length ∧
        lookupAssoc tx.pendingBlocks
          ((regions.getD fd.replyIndex default).hash) = none) := by
  constructor
  · intro bs h
    rcases hc : tx.closed with _ | _
    case true =>
      simp [FetchBlockRegions, hc] at h
    case false =>
    have hnc : ¬(tx.closed = true) := by simp [hc]
    simp only [FetchBlockRegions] at h
    rw [if_neg hnc] at h
    rcases hsc : fetchScan tx regions 0 with e | p
    · simp only [hsc] at h
      exact Except.noConfusion h
    · rcases p with ⟨os, fl⟩
      simp only [hsc, Except.ok.injEq] at h
      subst h
      obtain ⟨S1, S2, S3, S4⟩ := fetchScan_spec tx regions 0 os fl hsc
      have hperm := List.perm_insertionSort bulkLe fl
      have hnd_fl : (fl.map (fun fd => fd.replyIndex)).Nodup := by
        simp only [List.Nodup, List.pairwise_map]
        exact S2.imp fun h => Nat.ne_of_lt h
      have hnd_sorted : ((List.insertionSort bulkLe fl).map
          (fun fd => fd.replyIndex)).Nodup :=
        ((hperm.map (fun fd => fd.replyIndex)).symm).nodup hnd_fl
      have hbound_sorted : ∀ fd ∈ List.insertionSort bulkLe fl,
          fd.replyIndex < os.length := by
        intro fd hm
        have hm' : fd ∈ fl := (hperm.mem_iff).mp hm
        have h1 := (S3 fd hm').2.1
        omega
      refine ⟨?_, ?_⟩
      · rw [List.length_map, fetchFill_length, S1]
      · intro j hj
        have hfill := fetchFill_get env regions
          (List.insertionSort bulkLe fl) os j hnd_sorted hbound_sorted
        obtain ⟨Q1, Q2, Q3⟩ := S4 j hj
        rcases hpj : fetchPendingRegion tx (regions.getD j default)
          with e | obs
        · exact absurd hpj (Q1 e)
        · rcases obs with _ | bsj
          · -- non-pending region: filled from the sorted fetch list
            obtain ⟨row, loc, a1, a2, a3, a4, a5, a6⟩ := Q3 hpj
            have a6' : bulkFetchData.mk loc j ∈ fl := by
              simpa using a6
            have hmem_sorted : bulkFetchData.mk loc j ∈
                List.insertionSort bulkLe fl := (hperm.mem_iff).mpr a6'
            rcases hfind : List.find? (fun fd => decide (fd.replyIndex = j))
                (List.insertionSort bulkLe fl) with _ | fd
            · exfalso
              have h2 := List.find?_eq_none.mp hfind _ hmem_sorted
              simp at h2
            · have hfd_mem : fd ∈ List.insertionSort bulkLe fl :=
                List.mem_of_find?_eq_some hfind
              have hfd_ri : fd.replyIndex = j := by
                have h2 := List.find?_some hfind
                simpa using h2
              have hfd_eq : fd = bulkFetchData.mk loc j :=
                List.inj_on_of_nodup_map hnd_sorted hfd_mem hmem_sorted
                  (by simp [hfd_ri])
              rw [hfind] at hfill
              have hgd : ((fetchFill env regions os
                  (List.insertionSort bulkLe fl)).map
                    (Option.getD · [])).getD j [] =
                  readOf env regions fd := by
                rw [List.getD_eq_getElem?_getD, List.getElem?_map, hfill]
                rfl
              rw [hgd, hfd_eq]
              have hstep : FetchBlockRegion tx env (regions.getD j default) =
                  Except.ok (env.readBlockRegion loc
                    (regions.getD j default).offset
                    (regions.getD j default).len) := by
                simp only [FetchBlockRegion]
                rw [if_neg hnc]
                simp only [hpj, a1, a2]
                rw [if_neg (fun hor => Or.elim hor a3 a4)]
              exact hstep
          · -- pending region: satisfied inline, never written by fill
            obtain ⟨ho, hnotin⟩ := Q2 bsj hpj
            have hfind : List.find? (fun fd => decide (fd.replyIndex = j))
                (List.insertionSort bulkLe fl) = none := by
              rw [List.find?_eq_none]
              intro x hx
              have hx' : x ∈ fl := (hperm.mem_iff).mp hx
              have h2 := hnotin x hx'
              simpa using h2
            rw [hfind] at hfill
            have hgd : ((fetchFill env regions os
                (List.insertionSort bulkLe fl)).map
                  (Option.getD · [])).getD j [] = bsj := by
              rw [List.getD_eq_getElem?_getD, List.getElem?_map, hfill, ho]
              rfl
            rw [hgd]
            simp only [FetchBlockRegion]
            rw [if_neg hnc]
            simp only [hpj]
  · intro os fl hsc
    obtain ⟨S1, S2, S3, S4⟩ := fetchScan_spec tx regions 0 os fl hsc
    refine ⟨List.sorted_insertionSort bulkLe fl,
      List.perm_insertionSort bulkLe fl, ?_⟩
    intro fd hfd
    obtain ⟨ha, hb, hc2⟩ := S3 fd hfd
    refine ⟨by omega, ?_⟩
    simpa using hc2

/-- Witness for `fetchBlockRegions_spec`: a single pending region,
answered inline and returned at its input position. -/
theorem fetchBlockRegions_spec_witness :
    ([[2, 3]] : List (List Nat)).length =
      ([⟨5, 1, 2⟩] : List BlockRegion).length ∧
    ∀ j, j < ([⟨5, 1, 2⟩] : List BlockRegion).length →
      FetchBlockRegion
          { emptyWritableTx with
              pendingBlocks := [(5, 0)]
              pendingBlockData := [⟨5, [1, 2, 3, 4], 0⟩] }
          ⟨10, 0, 0, 0, fun _ _ _ => [], fun _ _ => []⟩
          (([⟨5, 1, 2⟩] : List BlockRegion).getD j default) =
        Except.ok (([[2, 3]] : List (List Nat)).getD j []) :=
  (fetchBlockRegions_spec
      { emptyWritableTx with
          pendingBlocks := [(5, 0)]
          pendingBlockData := [⟨5, [1, 2, 3, 4], 0⟩] }
      ⟨10, 0, 0, 0, fun _ _ _ => [], fun _ _ => []⟩
      [⟨5, 1, 2⟩]).1 [[2, 3]] rfl
